import Mathlib

/-!
Verification of the layout-reconstruction core of the PDF-Viewer backend
(src/backend/main.py) against its specification.

Python floating point coordinates are modelled as rationals.  Python dict
records for tokens, lines and paragraphs are modelled by the structure
`Token` with named fields (bbox index 0 is `left`, 1 is `top`, 2 is `right`,
3 is `bottom`).  Python list mutation in group_text_blocks is modelled twice:
a value-level version returning the computed groups, and a store-passing
version (suffix Mut) that also returns the final state of the caller list,
since the merge step rewrites dict records in place.
-/

namespace PDFViewer

/-- A positioned text token, the record shape built in extract_text
(lines 224-230 and 252-258 of main.py). -/
structure Token where
  id : String
  text : String
  left : ℚ
  top : ℚ
  right : ℚ
  bottom : ℚ
  page : ℤ
  deriving DecidableEq, Repr

/-- The record shape of the final paragraph payload (ExtractionResult,
minus the freshly generated uuid4 id, which is external randomness). -/
structure ParaRecord where
  text : String
  bbox : List ℚ
  page : ℤ
  deriving DecidableEq, Repr

/-- Python str.join with a single space separator. -/
def joinSpace : List String → String
  | [] => ""
  | [s] => s
  | s :: t :: rest => s ++ " " ++ joinSpace (t :: rest)

/-- Python min over a nonempty list of numbers; the empty case is never
reached by the guarded callers (Python would raise ValueError there, see
the fallible minListE). -/
def minList : List ℚ → ℚ
  | [] => 0
  | a :: as => as.foldl min a

/-- Python max over a nonempty list of numbers; empty case as in minList. -/
def maxList : List ℚ → ℚ
  | [] => 0
  | a :: as => as.foldl max a

/-- Python int() conversion applied to a rational: truncation toward zero. -/
def pyTrunc (q : ℚ) : ℤ := if q < 0 then -⌊-q⌋ else ⌊q⌋

/-- Python sorted() on rationals (ascending), used inside statistics.median. -/
def sortQ (l : List ℚ) : List ℚ := l.insertionSort (fun a b => a ≤ b)

/-- Python statistics.median: middle element of the sorted data for odd
length, average of the two middle elements for even length.  The value at
the empty list is irrelevant: statistics.median raises there and every
caller in main.py guards against it. -/
def statistics_median (l : List ℚ) : ℚ :=
  let s := sortQ l
  let n := s.length
  if n % 2 = 1 then s.getD (n / 2) 0
  else (s.getD (n / 2 - 1) 0 + s.getD (n / 2) 0) / 2

/-- Height of a text block, bbox[3] - bbox[1] (main.py line 47 and 152). -/
def blockHeight (t : Token) : ℚ := t.bottom - t.top

/-- calculate_text_heights (main.py lines 43-56): median of the positive
block heights, defaulting to 1.0 when no valid heights exist. -/
def calculate_text_heights (ts : List Token) : ℚ :=
  let heights := (ts.map blockHeight).filter (fun h => decide (0 < h))
  if heights = [] then 1 else statistics_median heights

/-- horizontal_tolerance = median_height * 0.3 (main.py line 64). -/
def htolOf (ts : List Token) : ℚ := calculate_text_heights ts * (3 / 10)

/-- vertical_tolerance = median_height * 0.25 (main.py line 67). -/
def vtolOf (ts : List Token) : ℚ := calculate_text_heights ts * (1 / 4)

/-- The vertical bucket int(bbox[1] / vertical_tolerance) of main.py
lines 74 and 78. -/
def yGroup (vtol : ℚ) (t : Token) : ℤ := pyTrunc (t.top / vtol)

/-- The Python tuple comparison (page, y_group) used as sort key on
main.py line 74. -/
def pageYgLe (vtol : ℚ) (a b : Token) : Prop :=
  a.page < b.page ∨ (a.page = b.page ∧ yGroup vtol a ≤ yGroup vtol b)

instance (vtol : ℚ) : DecidableRel (pageYgLe vtol) :=
  fun a b =>
    decidable_of_iff (a.page < b.page ∨ (a.page = b.page ∧ yGroup vtol a ≤ yGroup vtol b))
      Iff.rfl

/-- Python sorted(text_blocks, key=lambda x: (page, int(top / vtol))); a
stable sort, modelled by insertion sort, which is stable. -/
def sortByPageYg (vtol : ℚ) (ts : List Token) : List Token :=
  ts.insertionSort (pageYgLe vtol)

/-- Python current_line.sort(key=lambda x: x[bbox][0]) (main.py line 87). -/
def sortByLeft (ts : List Token) : List Token :=
  ts.insertionSort (fun a b => a.left ≤ b.left)

/-- The first loop of group_text_blocks (main.py lines 76-94): walk the
sorted blocks, growing current_line while the page matches the last block
of the line and the bucket matches current_y_group, emitting each finished
line sorted by its left coordinates.  The state some g of curYg holds
current_y_group once set; cur is nonempty whenever curYg is set, so the
mixed state in the last equation is unreachable from the entry point. -/
def lineLoop (vtol : ℚ) (groups : List (List Token)) (cur : List Token) :
    Option ℤ → List Token → List (List Token)
  | _, [] => if cur = [] then groups else groups ++ [sortByLeft cur]
  | none, b :: bs => lineLoop vtol groups (cur ++ [b]) (some (yGroup vtol b)) bs
  | some g, b :: bs =>
    match cur.getLast? with
    | some lastB =>
      if b.page = lastB.page ∧ yGroup vtol b = g then
        lineLoop vtol groups (cur ++ [b]) (some g) bs
      else
        lineLoop vtol (groups ++ [sortByLeft cur]) [b] (some (yGroup vtol b)) bs
    | none => lineLoop vtol groups (cur ++ [b]) (some g) bs

/-- The in-place merge of main.py lines 111-113: the last block of the
current group absorbs the next block, joining texts with a space and taking
max for the right and bottom edges (left and top are left untouched). -/
def mergeAbsorb (lastB b : Token) : Token :=
  { lastB with
      text := lastB.text ++ " " ++ b.text
      right := max lastB.right b.right
      bottom := max lastB.bottom b.bottom }

/-- The group finalization of main.py lines 116-126 and 130-140: id and page
from the first block, joined text, componentwise min/max bbox. -/
def finalizeGroup (g : List Token) : Token :=
  { id := ((g.map Token.id).headD "")
    text := joinSpace (g.map Token.text)
    left := minList (g.map Token.left)
    top := minList (g.map Token.top)
    right := maxList (g.map Token.right)
    bottom := maxList (g.map Token.bottom)
    page := ((g.map Token.page).headD 0) }

/-- The second loop of group_text_blocks (main.py lines 102-140) for one
line: blocks close enough horizontally are absorbed into the last block of
the current group, otherwise the group is finalized and a new one starts. -/
def mergeLoop (htol : ℚ) (merged curGroup : List Token) : List Token → List Token
  | [] => if curGroup = [] then merged else merged ++ [finalizeGroup curGroup]
  | b :: bs =>
    match curGroup.getLast? with
    | none => mergeLoop htol merged [b] bs
    | some lastB =>
      if b.left ≤ lastB.right + htol then
        mergeLoop htol merged (curGroup.dropLast ++ [mergeAbsorb lastB b]) bs
      else
        mergeLoop htol (merged ++ [finalizeGroup curGroup]) [b] bs

/-- group_text_blocks (main.py lines 58-144): adaptive tolerances from the
median height, bucket the blocks into lines, then merge each line. -/
def group_text_blocks (ts : List Token) : List Token :=
  let htol := htolOf ts
  let vtol := vtolOf ts
  let lineGroups := lineLoop vtol [] [] none (sortByPageYg vtol ts)
  (lineGroups.map (fun line => mergeLoop htol [] [] line)).flatten

/-- The Python tuple comparison (page, top) used as sort key on
main.py line 165. -/
def pageTopLe (a b : Token) : Prop :=
  a.page < b.page ∨ (a.page = b.page ∧ a.top ≤ b.top)

instance : DecidableRel pageTopLe :=
  fun a b =>
    decidable_of_iff (a.page < b.page ∨ (a.page = b.page ∧ a.top ≤ b.top)) Iff.rfl

/-- Python sorted(lines, key=lambda x: (page, bbox[1])) (main.py line 165). -/
def sortByPageTop (ls : List Token) : List Token :=
  ls.insertionSort pageTopLe

/-- The accumulation loop of group_paragraphs (main.py lines 167-183). -/
def paraLoop (thr : ℚ) (paras : List (List Token)) (cur : List Token) :
    List Token → List (List Token)
  | [] => if cur = [] then paras else paras ++ [cur]
  | l :: ls =>
    match cur.getLast? with
    | none => paraLoop thr paras [l] ls
    | some lastL =>
      if l.page = lastL.page ∧ l.top - lastL.bottom ≤ thr then
        paraLoop thr paras (cur ++ [l]) ls
      else
        paraLoop thr (paras ++ [cur]) [l] ls

/-- vertical_gap_threshold = median_line_height * 1.5 (main.py line 159). -/
def gapThresholdOf (ls : List Token) : ℚ :=
  statistics_median (ls.map blockHeight) * (3 / 2)

/-- group_paragraphs (main.py lines 146-185). -/
def group_paragraphs (ls : List Token) : List (List Token) :=
  if ls = [] then []
  else
    let lineHeights := ls.map blockHeight
    if lineHeights = [] then []
    else paraLoop (gapThresholdOf ls) [] [] (sortByPageTop ls)

/-- create_paragraph_bbox (main.py lines 187-193). -/
def create_paragraph_bbox (ls : List Token) : List ℚ :=
  [minList (ls.map Token.left), minList (ls.map Token.top),
   maxList (ls.map Token.right), maxList (ls.map Token.bottom)]

/-- The paragraph formatting loop of extract_text (main.py lines 267-277):
skip empty paragraphs, join the line texts with spaces, take the union
bbox and the page of the first line. -/
def format_paragraphs (ps : List (List Token)) : List ParaRecord :=
  (ps.filter (fun p => !p.isEmpty)).map (fun p =>
    { text := joinSpace (p.map Token.text)
      bbox := create_paragraph_bbox p
      page := ((p.map Token.page).headD 0) })

/-- The full clustering pipeline as run by extract_text (main.py
lines 260-277) on the extracted tokens of a document. -/
def pipeline (ts : List Token) : List ParaRecord :=
  format_paragraphs (group_paragraphs (group_text_blocks ts))

/-- convert_image_to_pdf_coords (main.py lines 34-41), called by
extract_text with the OCR token box (left, top, width, height) and the
page dimensions: every coordinate is scaled by page size over the size of
the token box itself. -/
def convert_image_to_pdf_coords (image_x image_y image_w image_h page_width page_height : ℚ) :
    List ℚ :=
  [image_x * (page_width / image_w),
   image_y * (page_height / image_h),
   (image_x + image_w) * (page_width / image_w),
   (image_y + image_h) * (page_height / image_h)]

/-- Modelled from the spec (section 4.2 CoordinateNormalizer): scale each
coordinate of both corners of the token box by the ratio of the page
dimensions to the dimensions of the rasterized page image. -/
def spec_normalize_box (x y w h img_w img_h page_w page_h : ℚ) : List ℚ :=
  [x * (page_w / img_w), y * (page_h / img_h),
   (x + w) * (page_w / img_w), (y + h) * (page_h / img_h)]

/-!
Chunking by a relation between consecutive elements.  Both accumulation
loops of main.py (lines into current_line runs, lines into paragraphs)
partition a sorted list into maximal runs in which every transition from
one element to the next satisfies the loop condition; `chunkBy` is that
partition stated structurally, and the bridge lemmas below prove that the
faithful loop translations compute it.
-/

/-- Attach an element in front of an existing chunk list: extend the first
chunk when R accepts the transition to its head (the next element of the
original list), otherwise open a new singleton chunk.  The equation for an
empty first chunk is unreachable: chunkBy only builds nonempty chunks. -/
def glue {α : Type} (R : α → α → Prop) [DecidableRel R] (a : α) :
    List (List α) → List (List α)
  | [] => [[a]]
  | c :: cs =>
    match c with
    | [] => [a] :: cs
    | b :: _ => if R a b then (a :: c) :: cs else [a] :: c :: cs

/-- Partition a list into maximal runs of elements in which each
consecutive transition satisfies R. -/
def chunkBy {α : Type} (R : α → α → Prop) [DecidableRel R] : List α → List (List α)
  | [] => []
  | a :: as => glue R a (chunkBy R as)

/-- The relation between one line and the next that keeps them in the same
paragraph (main.py lines 173-176): same page and vertical gap at most the
threshold. -/
def paraRel (thr : ℚ) (a b : Token) : Prop :=
  b.page = a.page ∧ b.top - a.bottom ≤ thr

instance (thr : ℚ) : DecidableRel (paraRel thr) :=
  fun a b => decidable_of_iff (b.page = a.page ∧ b.top - a.bottom ≤ thr) Iff.rfl

/-- The relation between one block and the next that keeps them in the
same candidate line in the first loop of group_text_blocks: same page and
same vertical bucket. -/
def lineRel (vtol : ℚ) (a b : Token) : Prop :=
  b.page = a.page ∧ yGroup vtol b = yGroup vtol a

instance (vtol : ℚ) : DecidableRel (lineRel vtol) :=
  fun a b => decidable_of_iff (b.page = a.page ∧ yGroup vtol b = yGroup vtol a) Iff.rfl

theorem chunkBy_cons {α : Type} (R : α → α → Prop) [DecidableRel R] (a : α)
    (as : List α) : chunkBy R (a :: as) = glue R a (chunkBy R as) := rfl

theorem glue_flatten {α : Type} (R : α → α → Prop) [DecidableRel R] (a : α) :
    ∀ L : List (List α), (glue R a L).flatten = a :: L.flatten := by
  intro L
  match L with
  | [] => simp [glue]
  | [] :: cs => simp [glue]
  | (b :: c) :: cs =>
    by_cases h : R a b <;> simp [glue, h]

theorem chunkBy_flatten {α : Type} (R : α → α → Prop) [DecidableRel R] :
    ∀ l : List α, (chunkBy R l).flatten = l := by
  intro l
  induction l with
  | nil => rfl
  | cons a as ih => rw [chunkBy_cons, glue_flatten, ih]

theorem chunkBy_cons_head {α : Type} (R : α → α → Prop) [DecidableRel R] (a : α)
    (as : List α) : ∃ t cs, chunkBy R (a :: as) = (a :: t) :: cs := by
  induction as generalizing a with
  | nil => exact ⟨[], [], rfl⟩
  | cons b bs ih =>
    obtain ⟨t, cs, heq⟩ := ih b
    rw [chunkBy_cons, heq]
    by_cases h : R a b
    · exact ⟨b :: t, cs, by simp [glue, h]⟩
    · exact ⟨[], (b :: t) :: cs, by simp [glue, h]⟩

theorem glue_length_le {α : Type} (R : α → α → Prop) [DecidableRel R] (a : α) :
    ∀ L : List (List α), (glue R a L).length ≤ L.length + 1 := by
  intro L
  match L with
  | [] => simp [glue]
  | [] :: cs => simp [glue]
  | (b :: c) :: cs =>
    by_cases h : R a b <;> simp [glue, h]

theorem chunkBy_length_le {α : Type} (R : α → α → Prop) [DecidableRel R] :
    ∀ l : List α, (chunkBy R l).length ≤ l.length := by
  intro l
  induction l with
  | nil => simp [chunkBy]
  | cons a as ih =>
    rw [chunkBy_cons]
    calc (glue R a (chunkBy R as)).length ≤ (chunkBy R as).length + 1 :=
          glue_length_le R a _
    _ ≤ as.length + 1 := by omega
    _ = (a :: as).length := by simp

theorem chunkBy_ne_nil {α : Type} (R : α → α → Prop) [DecidableRel R] :
    ∀ l : List α, ∀ c ∈ chunkBy R l, c ≠ [] := by
  intro l
  induction l with
  | nil => intro c hc; simp [chunkBy] at hc
  | cons a as ih =>
    intro c hc
    rw [chunkBy_cons] at hc
    match hL : chunkBy R as with
    | [] => rw [hL] at hc; simp [glue] at hc; simp [hc]
    | [] :: cs => exact absurd rfl (ih [] (by rw [hL]; exact List.mem_cons_self _ _))
    | (b :: c0) :: cs =>
      rw [hL] at hc
      by_cases h : R a b <;> simp [glue, h] at hc <;>
        rcases hc with hc | hc <;> first
        | (subst hc; simp)
        | (exact ih c (by rw [hL]; simp [hc]))

theorem modifyHead_nil_append {α : Type} (L : List (List α)) :
    L.modifyHead (fun c => [] ++ c) = L := by
  cases L <;> simp

/-- Proof-level key: the Python tuple (page, bucket) under lexicographic
order. -/
def pageYgKey (vtol : ℚ) (t : Token) : Lex (ℤ × ℤ) := toLex (t.page, yGroup vtol t)

/-- Proof-level key: the tuple (page, bucket, left) under lexicographic
order, which determines the position of a token in the canonical line
structure. -/
def fullKey (vtol : ℚ) (t : Token) : Lex (Lex (ℤ × ℤ) × ℚ) :=
  toLex (pageYgKey vtol t, t.left)

/-- The canonical form of the line-building phase of group_text_blocks:
chunk the (page, bucket)-sorted blocks into runs of equal (page, bucket)
and sort each run by the left coordinate. -/
def canonLines (vtol : ℚ) (l : List Token) : List (List Token) :=
  (chunkBy (lineRel vtol) (sortByPageYg vtol l)).map sortByLeft

theorem pageYgLe_iff (vtol : ℚ) (a b : Token) :
    pageYgLe vtol a b ↔ pageYgKey vtol a ≤ pageYgKey vtol b := by
  rw [pageYgKey, pageYgKey, Prod.Lex.le_iff]
  exact Iff.rfl

theorem lineRel_iff (vtol : ℚ) (a b : Token) :
    lineRel vtol a b ↔ pageYgKey vtol a = pageYgKey vtol b := by
  rw [pageYgKey, pageYgKey, toLex_inj, Prod.ext_iff]
  constructor
  · rintro ⟨h1, h2⟩; exact ⟨h1.symm, h2.symm⟩
  · rintro ⟨h1, h2⟩; exact ⟨h1.symm, h2.symm⟩

theorem fullKey_le_iff (vtol : ℚ) (a b : Token) :
    fullKey vtol a ≤ fullKey vtol b ↔
      pageYgKey vtol a < pageYgKey vtol b ∨
        (pageYgKey vtol a = pageYgKey vtol b ∧ a.left ≤ b.left) := by
  rw [fullKey, fullKey, Prod.Lex.le_iff]

theorem fullKey_eq_iff (vtol : ℚ) (a b : Token) :
    fullKey vtol a = fullKey vtol b ↔
      a.page = b.page ∧ yGroup vtol a = yGroup vtol b ∧ a.left = b.left := by
  rw [fullKey, fullKey, toLex_inj, Prod.ext_iff, pageYgKey, pageYgKey, toLex_inj,
    Prod.ext_iff]
  tauto

theorem sortByPageYg_pairwise (vtol : ℚ) (l : List Token) :
    (sortByPageYg vtol l).Pairwise (fun a b => pageYgKey vtol a ≤ pageYgKey vtol b) := by
  haveI : IsTotal Token (pageYgLe vtol) :=
    ⟨fun a b => by rw [pageYgLe_iff, pageYgLe_iff]; exact le_total _ _⟩
  haveI : IsTrans Token (pageYgLe vtol) :=
    ⟨fun a b c hab hbc => by
      rw [pageYgLe_iff] at hab hbc ⊢; exact le_trans hab hbc⟩
  exact (List.sorted_insertionSort (pageYgLe vtol) l).imp
    (fun {a b} h => (pageYgLe_iff vtol a b).mp h)

theorem sortByLeft_pairwise (l : List Token) :
    (sortByLeft l).Pairwise (fun a b => a.left ≤ b.left) := by
  haveI : IsTotal Token (fun a b : Token => a.left ≤ b.left) := ⟨fun a b => le_total _ _⟩
  haveI : IsTrans Token (fun a b : Token => a.left ≤ b.left) :=
    ⟨fun _ _ _ hab hbc => le_trans hab hbc⟩
  exact List.sorted_insertionSort _ l

theorem sortByLeft_perm (l : List Token) : (sortByLeft l).Perm l :=
  List.perm_insertionSort _ l

theorem sortByPageYg_perm (vtol : ℚ) (l : List Token) : (sortByPageYg vtol l).Perm l :=
  List.perm_insertionSort _ l

theorem sortByPageTop_perm (l : List Token) : (sortByPageTop l).Perm l :=
  List.perm_insertionSort _ l

theorem paraLoop_concat_cons (thr : ℚ) (paras : List (List Token)) (cur : List Token)
    (x l : Token) (ls : List Token) :
    paraLoop thr paras (cur ++ [x]) (l :: ls) =
      if l.page = x.page ∧ l.top - x.bottom ≤ thr then
        paraLoop thr paras (cur ++ [x] ++ [l]) ls
      else paraLoop thr (paras ++ [cur ++ [x]]) [l] ls := by
  rw [paraLoop, List.getLast?_concat]

theorem lineLoop_concat_cons (vtol : ℚ) (groups : List (List Token)) (cur : List Token)
    (x : Token) (g : ℤ) (b : Token) (bs : List Token) :
    lineLoop vtol groups (cur ++ [x]) (some g) (b :: bs) =
      if b.page = x.page ∧ yGroup vtol b = g then
        lineLoop vtol groups (cur ++ [x] ++ [b]) (some g) bs
      else lineLoop vtol (groups ++ [sortByLeft (cur ++ [x])]) [b] (some (yGroup vtol b)) bs := by
  rw [lineLoop, List.getLast?_concat]

/-- Generalized invariant of the paragraph accumulation loop: with a
nonempty current paragraph whose last element is x, the loop emits the
pending paragraphs, then the chunks of x :: rest with the first chunk
extended by the earlier part of the current paragraph. -/
theorem paraLoop_eq (thr : ℚ) :
    ∀ (rest : List Token) (paras : List (List Token)) (cur : List Token) (x : Token),
      paraLoop thr paras (cur ++ [x]) rest =
        paras ++ ((chunkBy (paraRel thr) (x :: rest)).modifyHead fun c => cur ++ c) := by
  intro rest
  induction rest with
  | nil =>
    intro paras cur x
    rw [paraLoop, chunkBy_cons]
    simp [chunkBy, glue]
  | cons l ls ih =>
    intro paras cur x
    obtain ⟨t, cs, heq⟩ := chunkBy_cons_head (paraRel thr) l ls
    rw [paraLoop_concat_cons, chunkBy_cons, heq]
    by_cases h : l.page = x.page ∧ l.top - x.bottom ≤ thr
    · have hrel : paraRel thr x l := h
      rw [if_pos h]
      have := ih paras (cur ++ [x]) l
      rw [this, heq]
      simp [glue, hrel]
    · have hrel : ¬ paraRel thr x l := h
      rw [if_neg h]
      have := ih (paras ++ [cur ++ [x]]) [] l
      rw [List.nil_append] at this
      rw [this, heq]
      simp [glue, hrel, modifyHead_nil_append]

/-- group_paragraphs is exactly consecutive-gap chunking of the sorted
lines. -/
theorem group_paragraphs_eq_chunk (ls : List Token) :
    group_paragraphs ls = chunkBy (paraRel (gapThresholdOf ls)) (sortByPageTop ls) := by
  rw [group_paragraphs]
  by_cases hnil : ls = []
  · subst hnil; simp [sortByPageTop, List.insertionSort, chunkBy]
  · rw [if_neg hnil, if_neg (by simpa using hnil)]
    have hsp : sortByPageTop ls ≠ [] := by
      intro h
      exact hnil (List.eq_nil_of_length_eq_zero
        (by rw [← (List.perm_insertionSort pageTopLe ls).length_eq, ← sortByPageTop, h]; rfl))
    obtain ⟨s, srest, hs⟩ := List.exists_cons_of_ne_nil hsp
    rw [hs, paraLoop]
    simp only [List.getLast?_nil]
    have := paraLoop_eq (gapThresholdOf ls) srest [] [] s
    rw [List.nil_append] at this
    rw [this, modifyHead_nil_append, List.nil_append]

/-- Generalized invariant of the line accumulation loop, in the reachable
states: the current line is nonempty with last element x, and the stored
bucket is the bucket of x (every element of the current line shares it). -/
theorem lineLoop_eq (vtol : ℚ) :
    ∀ (rest : List Token) (groups : List (List Token)) (cur : List Token) (x : Token),
      lineLoop vtol groups (cur ++ [x]) (some (yGroup vtol x)) rest =
        groups ++ (((chunkBy (lineRel vtol) (x :: rest)).modifyHead fun c => cur ++ c).map
          sortByLeft) := by
  intro rest
  induction rest with
  | nil =>
    intro groups cur x
    rw [lineLoop, chunkBy_cons]
    simp [chunkBy, glue]
  | cons b bs ih =>
    intro groups cur x
    obtain ⟨t, cs, heq⟩ := chunkBy_cons_head (lineRel vtol) b bs
    rw [lineLoop_concat_cons, chunkBy_cons, heq]
    by_cases h : b.page = x.page ∧ yGroup vtol b = yGroup vtol x
    · have hrel : lineRel vtol x b := h
      rw [if_pos h]
      have hyg : yGroup vtol b = yGroup vtol x := h.2
      have := ih groups (cur ++ [x]) b
      rw [hyg] at this
      rw [this, heq]
      simp [glue, hrel]
    · have hrel : ¬ lineRel vtol x b := h
      rw [if_neg h]
      have := ih (groups ++ [sortByLeft (cur ++ [x])]) [] b
      rw [List.nil_append] at this
      rw [this, heq]
      simp [glue, hrel, modifyHead_nil_append]

/-- group_text_blocks is exactly: sort by (page, bucket), chunk by equal
(page, bucket), sort each chunk by left, merge each chunk. -/
theorem group_text_blocks_eq (ts : List Token) :
    group_text_blocks ts =
      ((canonLines (vtolOf ts) ts).map (fun line => mergeLoop (htolOf ts) [] [] line)).flatten := by
  rw [group_text_blocks, canonLines]
  by_cases hnil : sortByPageYg (vtolOf ts) ts = []
  · rw [hnil]; simp [lineLoop, chunkBy]
  · obtain ⟨s, srest, hs⟩ := List.exists_cons_of_ne_nil hnil
    rw [hs, lineLoop]
    have := lineLoop_eq (vtolOf ts) srest [] [] s
    rw [this, modifyHead_nil_append, List.nil_append]

/-- Structure of the chunks of a sorted list under an equality-of-key
relation: every chunk has a constant key and the keys strictly increase
from each chunk to every later chunk. -/
theorem chunkBy_key_struct {M : Type} {K : Type} [LinearOrder K] (key : M → K)
    (R : M → M → Prop) [DecidableRel R] (hR : ∀ a b, R a b ↔ key a = key b) :
    ∀ s : List M, s.Pairwise (fun a b => key a ≤ key b) →
      (∀ c ∈ chunkBy R s, ∀ x ∈ c, ∀ y ∈ c, key x = key y) ∧
      (chunkBy R s).Pairwise (fun c d => ∀ x ∈ c, ∀ y ∈ d, key x < key y) := by
  intro s
  induction s with
  | nil => intro _; exact ⟨by simp [chunkBy], by simp [chunkBy]⟩
  | cons a as ih =>
    intro hp
    have hpa : ∀ b ∈ as, key a ≤ key b := fun b hb => List.rel_of_pairwise_cons hp hb
    obtain ⟨hconst, hcross⟩ := ih hp.of_cons
    cases as with
    | nil => exact ⟨by simp [chunkBy, glue], by simp [chunkBy, glue]⟩
    | cons b bs =>
      obtain ⟨t, cs, heq⟩ := chunkBy_cons_head R b bs
      rw [chunkBy_cons, heq]
      rw [heq] at hconst hcross
      have hfirstconst : ∀ x ∈ b :: t, key x = key b :=
        fun x hx => hconst (b :: t) (List.mem_cons_self _ _) x hx b (List.mem_cons_self _ _)
      obtain ⟨hcrossb, hcrosstail⟩ := List.pairwise_cons.mp hcross
      by_cases hab : R a b
      · have hKab : key a = key b := (hR a b).mp hab
        rw [glue, if_pos hab]
        constructor
        · intro c hc x hx y hy
          rcases List.mem_cons.mp hc with hc | hc
          · subst hc
            have hx2 : key x = key b := by
              rcases List.mem_cons.mp hx with hx | hx
              · subst hx; exact hKab
              · exact hfirstconst x hx
            have hy2 : key y = key b := by
              rcases List.mem_cons.mp hy with hy | hy
              · subst hy; exact hKab
              · exact hfirstconst y hy
            rw [hx2, hy2]
          · exact hconst c (List.mem_cons_of_mem _ hc) x hx y hy
        · refine List.pairwise_cons.mpr ⟨?_, hcrosstail⟩
          intro d hd x hx y hy
          have hxb : key x = key b := by
            rcases List.mem_cons.mp hx with hx | hx
            · subst hx; exact hKab
            · exact hfirstconst x hx
          rw [hxb]
          exact hconst (b :: t) (List.mem_cons_self _ _) b (List.mem_cons_self _ _) b
              (List.mem_cons_self _ _) ▸ hcrossb d hd b (List.mem_cons_self _ _) y hy
      · have hKab : key a < key b := by
          refine lt_of_le_of_ne (hpa b (List.mem_cons_self _ _)) ?_
          intro h; exact hab ((hR a b).mpr h)
        rw [glue, if_neg hab]
        constructor
        · intro c hc x hx y hy
          rcases List.mem_cons.mp hc with hc | hc
          · subst hc
            rcases List.mem_singleton.mp hx with rfl
            rcases List.mem_singleton.mp hy with rfl
            rfl
          · exact hconst c hc x hx y hy
        · refine List.pairwise_cons.mpr ⟨?_, hcross⟩
          intro d hd x hx y hy
          rcases List.mem_singleton.mp hx with rfl
          rcases List.mem_cons.mp hd with hd | hd
          · subst hd
            have : key y = key b := hfirstconst y hy
            rw [this]; exact hKab
          · have : key b < key y := hcrossb d hd b (List.mem_cons_self _ _) y hy
            exact lt_trans hKab this

/-- Chunking a list that starts with a nonempty constant-key block whose
key differs from the key of the next element: the block is split off
unchanged. -/
theorem chunkBy_const_prefix {M : Type} {K : Type} (key : M → K)
    (R : M → M → Prop) [DecidableRel R] (hR : ∀ a b, R a b ↔ key a = key b) :
    ∀ (c m : List M), c ≠ [] → (∀ x ∈ c, ∀ y ∈ c, key x = key y) →
      (∀ x ∈ c, ∀ y, m.head? = some y → key x ≠ key y) →
      chunkBy R (c ++ m) = c :: chunkBy R m := by
  intro c
  induction c with
  | nil => intro m h; exact absurd rfl h
  | cons x c2 ih =>
    intro m _ hconst hhead
    cases c2 with
    | nil =>
      cases m with
      | nil => simp [chunkBy, glue]
      | cons y m2 =>
        obtain ⟨t, cs, heq⟩ := chunkBy_cons_head R y m2
        have hxy : ¬ R x y := by
          intro h
          exact hhead x (List.mem_singleton_self x) y rfl ((hR x y).mp h)
        rw [List.singleton_append, chunkBy_cons, heq, glue, if_neg hxy, ← heq]
    | cons x2 c3 =>
      have hrec : chunkBy R ((x2 :: c3) ++ m) = (x2 :: c3) :: chunkBy R m := by
        refine ih m (by simp) ?_ ?_
        · intro u hu v hv
          exact hconst u (List.mem_cons_of_mem _ hu) v (List.mem_cons_of_mem _ hv)
        · intro u hu y hy
          exact hhead u (List.mem_cons_of_mem _ hu) y hy
      have hx2 : R x x2 :=
        (hR x x2).mpr (hconst x (List.mem_cons_self _ _) x2
          (List.mem_cons_of_mem _ (List.mem_cons_self _ _)))
      rw [List.cons_append, chunkBy_cons, hrec, glue, if_pos hx2]

/-- Reconstruction: chunking the concatenation of nonempty constant-key
blocks with pairwise different keys between neighbours recovers exactly
those blocks. -/
theorem chunkBy_flatten_blocks {M : Type} {K : Type} (key : M → K)
    (R : M → M → Prop) [DecidableRel R] (hR : ∀ a b, R a b ↔ key a = key b) :
    ∀ blocks : List (List M), (∀ c ∈ blocks, c ≠ []) →
      (∀ c ∈ blocks, ∀ x ∈ c, ∀ y ∈ c, key x = key y) →
      blocks.Chain' (fun c d => ∀ x ∈ c, ∀ y ∈ d, key x ≠ key y) →
      chunkBy R blocks.flatten = blocks := by
  intro blocks
  induction blocks with
  | nil => intro _ _ _; rfl
  | cons c rest ih =>
    intro hne hconst hchain
    rw [List.flatten_cons]
    have hstep : chunkBy R (c ++ rest.flatten) = c :: chunkBy R rest.flatten := by
      refine chunkBy_const_prefix key R hR c rest.flatten
        (hne c (List.mem_cons_self _ _))
        (hconst c (List.mem_cons_self _ _)) ?_
      intro x hx y hy
      cases rest with
      | nil => simp at hy
      | cons d rest2 =>
        have hd : d ≠ [] := hne d (List.mem_cons_of_mem _ (List.mem_cons_self _ _))
        obtain ⟨dh, dt, rfl⟩ := List.exists_cons_of_ne_nil hd
        rw [List.flatten_cons, List.cons_append, List.head?_cons] at hy
        have hdh : dh = y := by injection hy
        subst hdh
        exact (List.chain'_cons.mp hchain).1 x hx dh (List.mem_cons_self _ _)
    rw [hstep]
    refine congrArg (c :: ·) (ih ?_ ?_ ?_)
    · exact fun d hd => hne d (List.mem_cons_of_mem _ hd)
    · exact fun d hd => hconst d (List.mem_cons_of_mem _ hd)
    · exact hchain.tail

/-- Two sorted permutations of each other are equal when the sort key is
injective on their members. -/
theorem perm_pairwise_key_inj_eq {M : Type} {K : Type} [LinearOrder K] (key : M → K) :
    ∀ (l1 l2 : List M), l1.Perm l2 →
      l1.Pairwise (fun a b => key a ≤ key b) → l2.Pairwise (fun a b => key a ≤ key b) →
      (∀ a ∈ l1, ∀ b ∈ l1, key a = key b → a = b) → l1 = l2 := by
  intro l1
  induction l1 with
  | nil => intro l2 p _ _ _; exact (p.symm.eq_nil).symm ▸ rfl
  | cons a t1 ih =>
    intro l2 p h1 h2 hinj
    have hl2 : l2 ≠ [] := by
      intro h; subst h; exact absurd p.eq_nil (by simp)
    obtain ⟨b, t2, rfl⟩ := List.exists_cons_of_ne_nil hl2
    have hb1 : b ∈ a :: t1 := p.symm.subset (List.mem_cons_self _ _)
    have ha2 : a ∈ b :: t2 := p.subset (List.mem_cons_self _ _)
    have hab : a = b := by
      rcases List.mem_cons.mp hb1 with hba | hbt1
      · exact hba.symm
      rcases List.mem_cons.mp ha2 with hab | hat2
      · exact hab
      · have h1ab : key a ≤ key b := List.rel_of_pairwise_cons h1 hbt1
        have h2ba : key b ≤ key a := List.rel_of_pairwise_cons h2 hat2
        exact hinj a (List.mem_cons_self _ _) b (List.mem_cons_of_mem _ hbt1)
          (le_antisymm h1ab h2ba)
    subst hab
    have ht : t1 = t2 := by
      refine ih t2 p.cons_inv h1.of_cons h2.of_cons ?_
      intro x hx y hy
      exact hinj x (List.mem_cons_of_mem _ hx) y (List.mem_cons_of_mem _ hy)
    rw [ht]

theorem statistics_median_perm (l1 l2 : List ℚ) (p : l1.Perm l2) :
    statistics_median l1 = statistics_median l2 := by
  have hsort : sortQ l1 = sortQ l2 := by
    haveI : IsAntisymm ℚ (fun a b : ℚ => a ≤ b) := ⟨fun _ _ h1 h2 => le_antisymm h1 h2⟩
    exact List.eq_of_perm_of_sorted (r := fun a b : ℚ => a ≤ b)
      ((List.perm_insertionSort _ l1).trans (p.trans (List.perm_insertionSort _ l2).symm))
      (List.sorted_insertionSort _ l1)
      (List.sorted_insertionSort _ l2)
  rw [statistics_median, statistics_median, hsort]

theorem calculate_text_heights_perm (l1 l2 : List Token) (p : l1.Perm l2) :
    calculate_text_heights l1 = calculate_text_heights l2 := by
  have hp := List.Perm.filter (fun h => decide (0 < h)) (p.map blockHeight)
  rw [calculate_text_heights, calculate_text_heights]
  by_cases h1 : (l1.map blockHeight).filter (fun h => decide (0 < h)) = []
  · have h2 : (l2.map blockHeight).filter (fun h => decide (0 < h)) = [] := by
      rw [h1] at hp; exact hp.symm.eq_nil
    simp only [h1, h2]
  · have h2 : (l2.map blockHeight).filter (fun h => decide (0 < h)) ≠ [] := by
      intro h; rw [h] at hp; exact h1 hp.eq_nil
    simp only [if_neg h1, if_neg h2]
    exact statistics_median_perm _ _ hp

theorem flatten_map_sortByLeft_perm :
    ∀ L : List (List Token), ((L.map sortByLeft).flatten).Perm L.flatten := by
  intro L
  induction L with
  | nil => exact List.Perm.refl _
  | cons c cs ih =>
    rw [List.map_cons, List.flatten_cons, List.flatten_cons]
    exact (sortByLeft_perm c).append ih

theorem canonLines_flatten_perm (vtol : ℚ) (l : List Token) :
    (canonLines vtol l).flatten.Perm l := by
  rw [canonLines]
  exact (flatten_map_sortByLeft_perm _).trans
    (by rw [chunkBy_flatten]; exact sortByPageYg_perm vtol l)

theorem canonLines_flatten_pairwise (vtol : ℚ) (l : List Token) :
    (canonLines vtol l).flatten.Pairwise
      (fun a b => fullKey vtol a ≤ fullKey vtol b) := by
  obtain ⟨hconst, hcross⟩ := chunkBy_key_struct (pageYgKey vtol) (lineRel vtol)
    (lineRel_iff vtol) (sortByPageYg vtol l) (sortByPageYg_pairwise vtol l)
  rw [canonLines, List.pairwise_flatten]
  constructor
  · intro c hc
    obtain ⟨c0, hc0, rfl⟩ := List.mem_map.mp hc
    refine List.Pairwise.imp_of_mem ?_ (sortByLeft_pairwise c0)
    intro x y hx hy hxy
    have hkx : pageYgKey vtol x = pageYgKey vtol y :=
      hconst c0 hc0 x ((sortByLeft_perm c0).subset hx) y ((sortByLeft_perm c0).subset hy)
    rw [fullKey_le_iff]
    exact Or.inr ⟨hkx, hxy⟩
  · rw [List.pairwise_map]
    refine hcross.imp ?_
    intro c d h x hx y hy
    rw [fullKey_le_iff]
    exact Or.inl (h x ((sortByLeft_perm c).subset hx) y ((sortByLeft_perm d).subset hy))

theorem canonLines_reconstruct (vtol : ℚ) (l : List Token) :
    chunkBy (lineRel vtol) (canonLines vtol l).flatten = canonLines vtol l := by
  obtain ⟨hconst, hcross⟩ := chunkBy_key_struct (pageYgKey vtol) (lineRel vtol)
    (lineRel_iff vtol) (sortByPageYg vtol l) (sortByPageYg_pairwise vtol l)
  refine chunkBy_flatten_blocks (pageYgKey vtol) (lineRel vtol) (lineRel_iff vtol)
    (canonLines vtol l) ?_ ?_ ?_
  · intro c hc
    obtain ⟨c0, hc0, rfl⟩ := List.mem_map.mp hc
    intro h
    refine chunkBy_ne_nil _ _ c0 hc0 ?_
    exact List.eq_nil_of_length_eq_zero (by rw [← (sortByLeft_perm c0).length_eq, h]; rfl)
  · intro c hc x hx y hy
    obtain ⟨c0, hc0, rfl⟩ := List.mem_map.mp hc
    exact hconst c0 hc0 x ((sortByLeft_perm c0).subset hx) y ((sortByLeft_perm c0).subset hy)
  · refine List.Pairwise.chain' ?_
    rw [canonLines, List.pairwise_map]
    refine hcross.imp ?_
    intro c d h x hx y hy
    exact ne_of_lt (h x ((sortByLeft_perm c).subset hx) y ((sortByLeft_perm d).subset hy))

theorem canonLines_perm_eq (vtol : ℚ) (l1 l2 : List Token) (p : l1.Perm l2)
    (hinj : ∀ a ∈ l1, ∀ b ∈ l1, fullKey vtol a = fullKey vtol b → a = b) :
    canonLines vtol l1 = canonLines vtol l2 := by
  have hperm1 := canonLines_flatten_perm vtol l1
  have hperm2 := canonLines_flatten_perm vtol l2
  have hflat : (canonLines vtol l1).flatten = (canonLines vtol l2).flatten := by
    refine perm_pairwise_key_inj_eq (fullKey vtol) _ _
      (hperm1.trans (p.trans hperm2.symm))
      (canonLines_flatten_pairwise vtol l1) (canonLines_flatten_pairwise vtol l2) ?_
    intro a ha b hb
    exact hinj a (hperm1.subset ha) b (hperm1.subset hb)
  rw [← canonLines_reconstruct vtol l1, ← canonLines_reconstruct vtol l2, hflat]

theorem group_text_blocks_perm (l1 l2 : List Token) (p : l1.Perm l2)
    (hinj : ∀ a ∈ l1, ∀ b ∈ l1, fullKey (vtolOf l1) a = fullKey (vtolOf l1) b → a = b) :
    group_text_blocks l1 = group_text_blocks l2 := by
  have hch : calculate_text_heights l1 = calculate_text_heights l2 :=
    calculate_text_heights_perm l1 l2 p
  have hv : vtolOf l1 = vtolOf l2 := by rw [vtolOf, vtolOf, hch]
  have hh : htolOf l1 = htolOf l2 := by rw [htolOf, htolOf, hch]
  rw [group_text_blocks_eq l1, group_text_blocks_eq l2, ← hv, ← hh,
    canonLines_perm_eq (vtolOf l1) l1 l2 p hinj]

theorem statistics_median_pos (l : List ℚ) (hne : l ≠ []) (hpos : ∀ x ∈ l, 0 < x) :
    0 < statistics_median l := by
  have hmem : ∀ x ∈ sortQ l, 0 < x := fun x hx =>
    hpos x ((List.perm_insertionSort _ l).subset hx)
  have hlen : sortQ l ≠ [] := by
    intro h
    exact hne (List.eq_nil_of_length_eq_zero
      (by rw [← (List.perm_insertionSort (fun a b : ℚ => a ≤ b) l).length_eq, ← sortQ, h]; rfl))
  have hlen0 : 0 < (sortQ l).length := List.length_pos.mpr hlen
  rw [statistics_median]
  by_cases hodd : (sortQ l).length % 2 = 1
  · rw [if_pos hodd]
    have hidx : (sortQ l).length / 2 < (sortQ l).length := by omega
    rw [List.getD_eq_getElem _ _ hidx]
    exact hmem _ (List.getElem_mem _)
  · rw [if_neg hodd]
    have hidx1 : (sortQ l).length / 2 - 1 < (sortQ l).length := by omega
    have hidx2 : (sortQ l).length / 2 < (sortQ l).length := by omega
    rw [List.getD_eq_getElem _ _ hidx1, List.getD_eq_getElem _ _ hidx2]
    have h1 := hmem _ (List.getElem_mem hidx1)
    have h2 := hmem _ (List.getElem_mem hidx2)
    positivity

theorem calculate_text_heights_pos (ts : List Token) : 0 < calculate_text_heights ts := by
  rw [calculate_text_heights]
  by_cases h : (ts.map blockHeight).filter (fun h => decide (0 < h)) = []
  · simp [h]
  · rw [if_neg h]
    refine statistics_median_pos _ h ?_
    intro x hx
    have := List.of_mem_filter hx
    simpa using this

theorem vtolOf_pos (ts : List Token) : 0 < vtolOf ts := by
  rw [vtolOf]
  have := calculate_text_heights_pos ts
  positivity

theorem pyTrunc_eq_floor_of_nonneg (q : ℚ) (h : 0 ≤ q) : pyTrunc q = ⌊q⌋ := by
  rw [pyTrunc, if_neg (not_lt.mpr h)]

theorem foldl_min_le (as : List ℚ) :
    ∀ a : ℚ, as.foldl min a ≤ a ∧ ∀ x ∈ as, as.foldl min a ≤ x := by
  induction as with
  | nil => intro a; simp
  | cons b bs ih =>
    intro a
    rw [List.foldl_cons]
    obtain ⟨h1, h2⟩ := ih (min a b)
    refine ⟨le_trans h1 (min_le_left _ _), ?_⟩
    intro x hx
    rcases List.mem_cons.mp hx with rfl | hx
    · exact le_trans h1 (min_le_right _ _)
    · exact h2 x hx

theorem foldl_min_mem (as : List ℚ) :
    ∀ a : ℚ, as.foldl min a = a ∨ as.foldl min a ∈ as := by
  induction as with
  | nil => intro a; simp
  | cons b bs ih =>
    intro a
    rw [List.foldl_cons]
    rcases ih (min a b) with h | h
    · rcases le_total a b with hab | hab
      · left; rw [h, min_eq_left hab]
      · right; rw [h, min_eq_right hab]; exact List.mem_cons_self _ _
    · right; exact List.mem_cons_of_mem _ h

theorem foldl_max_le (as : List ℚ) :
    ∀ a : ℚ, a ≤ as.foldl max a ∧ ∀ x ∈ as, x ≤ as.foldl max a := by
  induction as with
  | nil => intro a; simp
  | cons b bs ih =>
    intro a
    rw [List.foldl_cons]
    obtain ⟨h1, h2⟩ := ih (max a b)
    refine ⟨le_trans (le_max_left _ _) h1, ?_⟩
    intro x hx
    rcases List.mem_cons.mp hx with rfl | hx
    · exact le_trans (le_max_right _ _) h1
    · exact h2 x hx

theorem foldl_max_mem (as : List ℚ) :
    ∀ a : ℚ, as.foldl max a = a ∨ as.foldl max a ∈ as := by
  induction as with
  | nil => intro a; simp
  | cons b bs ih =>
    intro a
    rw [List.foldl_cons]
    rcases ih (max a b) with h | h
    · rcases le_total a b with hab | hab
      · right; rw [h, max_eq_right hab]; exact List.mem_cons_self _ _
      · left; rw [h, max_eq_left hab]
    · right; exact List.mem_cons_of_mem _ h

theorem joinSpace_append_head (x y : String) (zs : List String) :
    joinSpace ((x ++ " " ++ y) :: zs) = x ++ " " ++ joinSpace (y :: zs) := by
  cases zs with
  | nil => rfl
  | cons z zs => simp [joinSpace, String.append_assoc]

/-- Characterization of repeatedly absorbing blocks into an initial block,
which is what the merge phase of group_text_blocks does to each maximal
horizontal run: text is space-joined in order, left and top stay those of
the initial block, right and bottom take the running max. -/
theorem foldl_mergeAbsorb_spec (g : List Token) : ∀ t : Token,
    (g.foldl mergeAbsorb t).id = t.id ∧
    (g.foldl mergeAbsorb t).text = joinSpace (t.text :: g.map Token.text) ∧
    (g.foldl mergeAbsorb t).left = t.left ∧
    (g.foldl mergeAbsorb t).top = t.top ∧
    (g.foldl mergeAbsorb t).right = maxList (t.right :: g.map Token.right) ∧
    (g.foldl mergeAbsorb t).bottom = maxList (t.bottom :: g.map Token.bottom) ∧
    (g.foldl mergeAbsorb t).page = t.page := by
  induction g with
  | nil => intro t; exact ⟨rfl, rfl, rfl, rfl, rfl, rfl, rfl⟩
  | cons b bs ih =>
    intro t
    rw [List.foldl_cons]
    obtain ⟨hid, htext, hleft, htop, hright, hbottom, hpage⟩ := ih (mergeAbsorb t b)
    refine ⟨hid, ?_, hleft, htop, ?_, ?_, hpage⟩
    · rw [htext, List.map_cons]
      exact joinSpace_append_head t.text b.text (bs.map Token.text)
    · rw [hright, List.map_cons, maxList, maxList, List.foldl_cons]
      rfl
    · rw [hbottom, List.map_cons, maxList, maxList, List.foldl_cons]
      rfl

theorem mergeLoop_cons_none (htol : ℚ) (merged cur : List Token) (b : Token)
    (bs : List Token) (h : cur.getLast? = none) :
    mergeLoop htol merged cur (b :: bs) = mergeLoop htol merged [b] bs := by
  rw [mergeLoop, h]

theorem mergeLoop_cons_some (htol : ℚ) (merged cur : List Token) (b lastB : Token)
    (bs : List Token) (h : cur.getLast? = some lastB) :
    mergeLoop htol merged cur (b :: bs) =
      if b.left ≤ lastB.right + htol then
        mergeLoop htol merged (cur.dropLast ++ [mergeAbsorb lastB b]) bs
      else mergeLoop htol (merged ++ [finalizeGroup cur]) [b] bs := by
  rw [mergeLoop, h]

theorem mergeLoop_length_le (htol : ℚ) :
    ∀ (bs merged curGroup : List Token),
      (mergeLoop htol merged curGroup bs).length ≤
        merged.length + (if curGroup = [] then 0 else 1) + bs.length := by
  intro bs
  induction bs with
  | nil =>
    intro merged cur
    rw [mergeLoop]
    by_cases h : cur = [] <;> simp [h]
  | cons b bs ih =>
    intro merged cur
    cases hcg : cur.getLast? with
    | none =>
      have hcur : cur = [] := by
        cases cur with
        | nil => rfl
        | cons c cs =>
          rw [List.getLast?_eq_getLast _ (by simp)] at hcg
          exact absurd hcg (by simp)
      rw [mergeLoop_cons_none htol merged cur b bs hcg]
      have := ih merged [b]
      simp only [if_neg (by simp : ¬([b] : List Token) = [])] at this
      simp only [hcur, if_pos rfl, List.length_cons]
      omega
    | some lastB =>
      have hcur : ¬ cur = [] := by
        intro h; rw [h] at hcg; exact absurd hcg (by simp)
      rw [mergeLoop_cons_some htol merged cur b lastB bs hcg]
      by_cases hb : b.left ≤ lastB.right + htol
      · rw [if_pos hb]
        have := ih merged (cur.dropLast ++ [mergeAbsorb lastB b])
        simp only [if_neg (by simp : ¬(cur.dropLast ++ [mergeAbsorb lastB b]) = [])] at this
        simp only [if_neg hcur, List.length_cons]
        omega
      · rw [if_neg hb]
        have := ih (merged ++ [finalizeGroup cur]) [b]
        simp only [if_neg (by simp : ¬([b] : List Token) = []), List.length_append,
          List.length_cons, List.length_nil] at this
        simp only [if_neg hcur, List.length_cons]
        omega

theorem mergeLoop_length_le_self (htol : ℚ) (c : List Token) :
    (mergeLoop htol [] [] c).length ≤ c.length := by
  have := mergeLoop_length_le htol c [] []
  simpa using this

theorem flatten_map_mergeLoop_length_le (htol : ℚ) :
    ∀ L : List (List Token),
      ((L.map (fun c => mergeLoop htol [] [] c)).flatten).length ≤ L.flatten.length := by
  intro L
  induction L with
  | nil => simp
  | cons c cs ih =>
    rw [List.map_cons, List.flatten_cons, List.flatten_cons, List.length_append,
      List.length_append]
    have := mergeLoop_length_le_self htol c
    omega

theorem group_text_blocks_length_le (ts : List Token) :
    (group_text_blocks ts).length ≤ ts.length := by
  rw [group_text_blocks_eq]
  have h1 := flatten_map_mergeLoop_length_le (htolOf ts) (canonLines (vtolOf ts) ts)
  have h2 : (canonLines (vtolOf ts) ts).flatten.length = ts.length :=
    (canonLines_flatten_perm (vtolOf ts) ts).length_eq
  omega

theorem group_paragraphs_length_le (ls : List Token) :
    (group_paragraphs ls).length ≤ ls.length := by
  rw [group_paragraphs_eq_chunk]
  have h1 := chunkBy_length_le (paraRel (gapThresholdOf ls)) (sortByPageTop ls)
  have h2 : (sortByPageTop ls).length = ls.length := (sortByPageTop_perm ls).length_eq
  omega

/-!
Fallible embedding for the totality claim: every operation of the Python
core that can raise is modelled with an Option, returning none exactly
where the Python code would raise an exception:
- statistics.median raises StatisticsError on an empty list,
- the division by vertical_tolerance in the sort key and bucket of
  group_text_blocks raises ZeroDivisionError when the tolerance is zero
  and at least one token is processed,
- min and max raise ValueError on an empty sequence.
-/

def minListE : List ℚ → Option ℚ
  | [] => none
  | a :: as => some (as.foldl min a)

def maxListE : List ℚ → Option ℚ
  | [] => none
  | a :: as => some (as.foldl max a)

def medianE (l : List ℚ) : Option ℚ :=
  if l = [] then none else some (statistics_median l)

def create_paragraph_bboxE (ls : List Token) : Option (List ℚ) :=
  match minListE (ls.map Token.left), minListE (ls.map Token.top),
      maxListE (ls.map Token.right), maxListE (ls.map Token.bottom) with
  | some a, some b, some c, some d => some [a, b, c, d]
  | _, _, _, _ => none

def group_text_blocksE (ts : List Token) : Option (List Token) :=
  if ts ≠ [] ∧ vtolOf ts = 0 then none else some (group_text_blocks ts)

def group_paragraphsE (ls : List Token) : Option (List (List Token)) :=
  if ls = [] then some []
  else if ls.map blockHeight = [] then some []
  else
    match medianE (ls.map blockHeight) with
    | none => none
    | some med => some (paraLoop (med * (3 / 2)) [] [] (sortByPageTop ls))

def format_paragraphsE : List (List Token) → Option (List ParaRecord)
  | [] => some []
  | p :: ps =>
    if p.isEmpty then format_paragraphsE ps
    else
      match create_paragraph_bboxE p, format_paragraphsE ps with
      | some bb, some rest =>
        some ({ text := joinSpace (p.map Token.text), bbox := bb,
                page := ((p.map Token.page).headD 0) } :: rest)
      | _, _ => none

def pipelineE (ts : List Token) : Option (List ParaRecord) :=
  match group_text_blocksE ts with
  | none => none
  | some lines =>
    match group_paragraphsE lines with
    | none => none
    | some ps => format_paragraphsE ps

theorem group_text_blocksE_eq (ts : List Token) :
    group_text_blocksE ts = some (group_text_blocks ts) := by
  rw [group_text_blocksE, if_neg]
  intro h
  exact absurd h.2 (ne_of_gt (vtolOf_pos ts))

theorem group_paragraphsE_eq (ls : List Token) :
    group_paragraphsE ls = some (group_paragraphs ls) := by
  rw [group_paragraphsE, group_paragraphs]
  by_cases h : ls = []
  · rw [if_pos h, if_pos h]
  · rw [if_neg h, if_neg h]
    have hmap : ¬ ls.map blockHeight = [] := by
      intro hm
      exact h (List.map_eq_nil_iff.mp hm)
    rw [if_neg hmap, if_neg hmap, medianE, if_neg hmap]
    rfl

theorem create_paragraph_bboxE_eq (p : List Token) (h : ¬ p = []) :
    create_paragraph_bboxE p = some (create_paragraph_bbox p) := by
  obtain ⟨a, as, rfl⟩ := List.exists_cons_of_ne_nil h
  rfl

theorem format_paragraphsE_eq (ps : List (List Token)) :
    format_paragraphsE ps = some (format_paragraphs ps) := by
  induction ps with
  | nil => rfl
  | cons p rest ih =>
    rw [format_paragraphsE, format_paragraphs]
    by_cases h : p.isEmpty
    · rw [if_pos h, ih, format_paragraphs, List.filter_cons_of_neg (by simp [h])]
    · rw [if_neg h,
        create_paragraph_bboxE_eq p (by simpa [List.isEmpty_iff] using h), ih,
        format_paragraphs, List.filter_cons_of_pos (by simp [h]), List.map_cons]

/-- The whole pipeline never fails: the fallible version always returns
the value of the total one. -/
theorem pipelineE_eq (ts : List Token) : pipelineE ts = some (pipeline ts) := by
  simp only [pipelineE, group_text_blocksE_eq, group_paragraphsE_eq,
    format_paragraphsE_eq, pipeline]

/-!
Store-passing embedding of group_text_blocks for the in-place mutation
effect.  Python dicts are reference values: sorted() and the line lists
hold references into the caller list extracted_data, and the merge step
(main.py lines 111-113) writes through those references, so the caller
list is changed after group_text_blocks returns.  Tokens are paired with
their position in the caller list; each in-place merge is recorded as an
overwrite of that position, and the final store is the caller list with
all overwrites applied in order. -/

def sortByPageYgIdx (vtol : ℚ) (its : List (ℕ × Token)) : List (ℕ × Token) :=
  its.insertionSort (fun a b => pageYgLe vtol a.2 b.2)

def sortByLeftIdx (its : List (ℕ × Token)) : List (ℕ × Token) :=
  its.insertionSort (fun a b => a.2.left ≤ b.2.left)

/-- The first loop of group_text_blocks over position-tagged tokens. -/
def lineLoopIdx (vtol : ℚ) (groups : List (List (ℕ × Token))) (cur : List (ℕ × Token)) :
    Option ℤ → List (ℕ × Token) → List (List (ℕ × Token))
  | _, [] => if cur = [] then groups else groups ++ [sortByLeftIdx cur]
  | none, b :: bs => lineLoopIdx vtol groups (cur ++ [b]) (some (yGroup vtol b.2)) bs
  | some g, b :: bs =>
    match cur.getLast? with
    | some lastB =>
      if b.2.page = lastB.2.page ∧ yGroup vtol b.2 = g then
        lineLoopIdx vtol groups (cur ++ [b]) (some g) bs
      else
        lineLoopIdx vtol (groups ++ [sortByLeftIdx cur]) [b] (some (yGroup vtol b.2)) bs
    | none => lineLoopIdx vtol groups (cur ++ [b]) (some g) bs

/-- The merge loop of group_text_blocks over one position-tagged line,
recording every in-place write (main.py lines 111-113) as an overwrite of
the written position. -/
def mergeLoopIdx (htol : ℚ) (updates curGroup : List (ℕ × Token)) :
    List (ℕ × Token) → List (ℕ × Token)
  | [] => updates
  | b :: bs =>
    match curGroup.getLast? with
    | none => mergeLoopIdx htol updates [b] bs
    | some lastB =>
      if b.2.left ≤ lastB.2.right + htol then
        mergeLoopIdx htol (updates ++ [(lastB.1, mergeAbsorb lastB.2 b.2)])
          (curGroup.dropLast ++ [(lastB.1, mergeAbsorb lastB.2 b.2)]) bs
      else mergeLoopIdx htol updates [b] bs

/-- The state of the caller list extracted_data after group_text_blocks
returns: the original tokens with every in-place merge write applied. -/
def group_text_blocksMutStore (ts : List Token) : List Token :=
  let htol := htolOf ts
  let vtol := vtolOf ts
  let lineGroups := lineLoopIdx vtol [] [] none (sortByPageYgIdx vtol ts.enum)
  let updates := lineGroups.foldl (fun upd line => mergeLoopIdx htol upd [] line) []
  updates.foldl (fun st u => st.set u.1 u.2) ts

/-!
Claim theorems.
-/

/-- Claim C1, counterexample to the claim as stated: collapsing the two
tokens A (bbox [0, 9/2, 2, 17/2]) and B (bbox [1, 4, 2, 8]) into a Line,
group_text_blocks keeps the top of the leftmost token (9/2) instead of the
union min of the tops (4), so the Token-to-Line aggregation does not
return the union bounding box. -/
theorem C1_aggregation_counterexample :
    group_text_blocks [⟨"a", "A", 0, 9/2, 2, 17/2, 0⟩, ⟨"b", "B", 1, 4, 2, 8, 0⟩] =
      [⟨"a", "A B", 0, 9/2, 2, 17/2, 0⟩] ∧
    min ((⟨"a", "A", 0, 9/2, 2, 17/2, 0⟩ : Token).top)
      ((⟨"b", "B", 1, 4, 2, 8, 0⟩ : Token).top) = 4 ∧
    ((⟨"a", "A B", 0, 9/2, 2, 17/2, 0⟩ : Token).top) ≠ 4 := by
  refine ⟨?_, by norm_num, by norm_num⟩
  norm_num [group_text_blocks, htolOf, vtolOf, calculate_text_heights, blockHeight,
    statistics_median, sortQ, sortByPageYg, pageYgLe, yGroup, pyTrunc, lineLoop,
    sortByLeft, mergeLoop, mergeAbsorb, finalizeGroup, joinSpace, minList, maxList,
    List.insertionSort, List.orderedInsert, List.cons_ne_nil]
  all_goals rfl

/-- Claim C1 (amended): collapsing Lines into a Paragraph,
create_paragraph_bbox returns the union bounding box (min of lefts, min of
tops, max of rights, max of bottoms, each attained by some child) and the
text is space-joined in order; collapsing Tokens into a Line, the repeated
absorb step keeps the left and the top of the first (leftmost) child
unchanged - so the top is not the min of the tops - while the right and the
bottom take the running max and the text is space-joined in order. -/
theorem C1_aggregation_amended (ls : List Token) (t : Token) (g : List Token)
    (hls : ls ≠ []) :
    ((∀ p ∈ ls, (create_paragraph_bbox ls).getD 0 0 ≤ p.left ∧
        (create_paragraph_bbox ls).getD 1 0 ≤ p.top ∧
        p.right ≤ (create_paragraph_bbox ls).getD 2 0 ∧
        p.bottom ≤ (create_paragraph_bbox ls).getD 3 0) ∧
      (∃ p ∈ ls, (create_paragraph_bbox ls).getD 0 0 = p.left) ∧
      (∃ p ∈ ls, (create_paragraph_bbox ls).getD 1 0 = p.top) ∧
      (∃ p ∈ ls, (create_paragraph_bbox ls).getD 2 0 = p.right) ∧
      (∃ p ∈ ls, (create_paragraph_bbox ls).getD 3 0 = p.bottom)) ∧
    ((g.foldl mergeAbsorb t).text = joinSpace (t.text :: g.map Token.text) ∧
      (g.foldl mergeAbsorb t).left = t.left ∧
      (g.foldl mergeAbsorb t).top = t.top ∧
      (g.foldl mergeAbsorb t).right = maxList (t.right :: g.map Token.right) ∧
      (g.foldl mergeAbsorb t).bottom = maxList (t.bottom :: g.map Token.bottom)) := by
  constructor
  · obtain ⟨a, as, rfl⟩ := List.exists_cons_of_ne_nil hls
    have hbb : create_paragraph_bbox (a :: as) =
        [(as.map Token.left).foldl min a.left, (as.map Token.top).foldl min a.top,
         (as.map Token.right).foldl max a.right, (as.map Token.bottom).foldl max a.bottom] := by
      rw [create_paragraph_bbox]
      simp [minList, maxList]
    rw [hbb]
    simp only [List.getD_cons_zero, List.getD_cons_succ]
    refine ⟨?_, ?_, ?_, ?_, ?_⟩
    · intro p hp
      rcases List.mem_cons.mp hp with rfl | hp
      · exact ⟨(foldl_min_le _ _).1, (foldl_min_le _ _).1,
          (foldl_max_le _ _).1, (foldl_max_le _ _).1⟩
      · exact ⟨(foldl_min_le _ _).2 _ (List.mem_map_of_mem _ hp),
          (foldl_min_le _ _).2 _ (List.mem_map_of_mem _ hp),
          (foldl_max_le _ _).2 _ (List.mem_map_of_mem _ hp),
          (foldl_max_le _ _).2 _ (List.mem_map_of_mem _ hp)⟩
    · rcases foldl_min_mem (as.map Token.left) a.left with h | h
      · exact ⟨a, List.mem_cons_self _ _, h⟩
      · obtain ⟨q, hq, hq2⟩ := List.mem_map.mp h
        exact ⟨q, List.mem_cons_of_mem _ hq, hq2.symm⟩
    · rcases foldl_min_mem (as.map Token.top) a.top with h | h
      · exact ⟨a, List.mem_cons_self _ _, h⟩
      · obtain ⟨q, hq, hq2⟩ := List.mem_map.mp h
        exact ⟨q, List.mem_cons_of_mem _ hq, hq2.symm⟩
    · rcases foldl_max_mem (as.map Token.right) a.right with h | h
      · exact ⟨a, List.mem_cons_self _ _, h⟩
      · obtain ⟨q, hq, hq2⟩ := List.mem_map.mp h
        exact ⟨q, List.mem_cons_of_mem _ hq, hq2.symm⟩
    · rcases foldl_max_mem (as.map Token.bottom) a.bottom with h | h
      · exact ⟨a, List.mem_cons_self _ _, h⟩
      · obtain ⟨q, hq, hq2⟩ := List.mem_map.mp h
        exact ⟨q, List.mem_cons_of_mem _ hq, hq2.symm⟩
  · obtain ⟨_, h2, h3, h4, h5, h6, _⟩ := foldl_mergeAbsorb_spec g t
    exact ⟨h2, h3, h4, h5, h6⟩

/-- Claim C1 witness: the amended aggregation contract applied to one
concrete Line list and one concrete absorb run. -/
theorem C1_aggregation_witness :
    (([⟨"p", "P", 0, 1, 2, 3, 0⟩] : List Token) ≠ []) ∧
    (([⟨"q", "Q", 1, 0, 3, 5, 0⟩] : List Token).foldl mergeAbsorb
        ⟨"p", "P", 0, 1, 2, 3, 0⟩).top = (⟨"p", "P", 0, 1, 2, 3, 0⟩ : Token).top :=
  ⟨by simp,
    (C1_aggregation_amended [⟨"p", "P", 0, 1, 2, 3, 0⟩] ⟨"p", "P", 0, 1, 2, 3, 0⟩
      [⟨"q", "Q", 1, 0, 3, 5, 0⟩] (by simp)).2.2.2.1⟩

/-- Claim C2: the code scales each OCR coordinate by page size over the
size of the token box itself, not over the rasterized image size as the
spec requires.  For the token box (x, y, w, h) = (0, 0, 2, 2) on a 100x200
image of a 50x100 page, the code maps the box to [0, 0, 50, 100] (the whole
page) while the spec normalization gives [0, 0, 1, 1]. -/
theorem C2_coordinate_scaling_bug :
    convert_image_to_pdf_coords 0 0 2 2 50 100 = [0, 0, 50, 100] ∧
    spec_normalize_box 0 0 2 2 100 200 50 100 = [0, 0, 1, 1] ∧
    convert_image_to_pdf_coords 0 0 2 2 50 100 ≠
      spec_normalize_box 0 0 2 2 100 200 50 100 := by
  refine ⟨by norm_num [convert_image_to_pdf_coords], by norm_num [spec_normalize_box], ?_⟩
  norm_num [convert_image_to_pdf_coords, spec_normalize_box]

/-- Claim C3, counterexample to the claim as stated: two tokens with
identical boxes but different texts.  Swapping them swaps the words in the
output paragraph text, so the pipeline is not invariant under permutation
of the input. -/
theorem C3_order_independence_counterexample :
    ([⟨"i1", "a", 0, 0, 1, 1, 0⟩, ⟨"i2", "b", 0, 0, 1, 1, 0⟩] : List Token).Perm
      [⟨"i2", "b", 0, 0, 1, 1, 0⟩, ⟨"i1", "a", 0, 0, 1, 1, 0⟩] ∧
    pipeline [⟨"i1", "a", 0, 0, 1, 1, 0⟩, ⟨"i2", "b", 0, 0, 1, 1, 0⟩] ≠
      pipeline [⟨"i2", "b", 0, 0, 1, 1, 0⟩, ⟨"i1", "a", 0, 0, 1, 1, 0⟩] := by
  refine ⟨List.Perm.swap _ _ _, ?_⟩
  norm_num [pipeline, group_text_blocks, htolOf, vtolOf, calculate_text_heights, blockHeight,
    statistics_median, sortQ, sortByPageYg, pageYgLe, yGroup, pyTrunc, lineLoop, sortByLeft,
    mergeLoop, mergeAbsorb, finalizeGroup, joinSpace, minList, maxList, group_paragraphs,
    gapThresholdOf, sortByPageTop, pageTopLe, paraLoop, format_paragraphs,
    create_paragraph_bbox, List.insertionSort, List.orderedInsert, List.cons_ne_nil,
    ParaRecord.mk.injEq]
  decide

/-- Claim C3 (amended): the pipeline output is invariant under permutation
of the input tokens provided no two distinct tokens agree on all of page,
vertical bucket and left coordinate (for example two tokens with identical
boxes break the invariance, see the counterexample). -/
theorem C3_order_independence_amended (l1 l2 : List Token) (p : l1.Perm l2)
    (hpw : l1.Pairwise (fun a b =>
      a.page ≠ b.page ∨ yGroup (vtolOf l1) a ≠ yGroup (vtolOf l1) b ∨ a.left ≠ b.left)) :
    pipeline l1 = pipeline l2 := by
  have hinj : ∀ a ∈ l1, ∀ b ∈ l1,
      fullKey (vtolOf l1) a = fullKey (vtolOf l1) b → a = b := by
    intro a ha b hb hk
    by_contra hne
    have hsymm : Symmetric (fun a b : Token =>
        a.page ≠ b.page ∨ yGroup (vtolOf l1) a ≠ yGroup (vtolOf l1) b ∨ a.left ≠ b.left) := by
      intro x y h
      rcases h with h | h | h
      · exact Or.inl (Ne.symm h)
      · exact Or.inr (Or.inl (Ne.symm h))
      · exact Or.inr (Or.inr (Ne.symm h))
    have hd := List.Pairwise.forall hsymm hpw ha hb hne
    rw [fullKey_eq_iff] at hk
    rcases hd with h | h | h
    · exact h hk.1
    · exact h hk.2.1
    · exact h hk.2.2
  have hgtb := group_text_blocks_perm l1 l2 p hinj
  rw [pipeline, pipeline, hgtb]

/-- Claim C3 witness: two tokens with different left coordinates, in both
orders. -/
theorem C3_order_independence_witness :
    ([⟨"a", "alpha", 0, 0, 1, 1, 0⟩, ⟨"b", "beta", 6/5, 0, 2, 1, 0⟩] : List Token).Perm
      [⟨"b", "beta", 6/5, 0, 2, 1, 0⟩, ⟨"a", "alpha", 0, 0, 1, 1, 0⟩] ∧
    pipeline [⟨"a", "alpha", 0, 0, 1, 1, 0⟩, ⟨"b", "beta", 6/5, 0, 2, 1, 0⟩] =
      pipeline [⟨"b", "beta", 6/5, 0, 2, 1, 0⟩, ⟨"a", "alpha", 0, 0, 1, 1, 0⟩] := by
  refine ⟨List.Perm.swap _ _ _, ?_⟩
  refine C3_order_independence_amended _ _ (List.Perm.swap _ _ _) ?_
  refine List.pairwise_cons.mpr ⟨?_, List.pairwise_singleton _ _⟩
  intro b hb
  rcases List.mem_singleton.mp hb with rfl
  refine Or.inr (Or.inr ?_)
  norm_num

/-- Claim C4, counterexample to the claim as stated: a single token with
top -1 and height 8 gives vertical tolerance 2; the code computes the
bucket int(-1 / 2) = 0 (truncation toward zero), while floor(-1 / 2) = -1. -/
theorem C4_bucket_counterexample :
    yGroup (vtolOf [⟨"i", "x", 0, -1, 1, 7, 0⟩]) ⟨"i", "x", 0, -1, 1, 7, 0⟩ = 0 ∧
    ⌊(⟨"i", "x", 0, -1, 1, 7, 0⟩ : Token).top / vtolOf [⟨"i", "x", 0, -1, 1, 7, 0⟩]⌋ = -1 ∧
    (0 : ℤ) ≠ -1 := by
  refine ⟨?_, ?_, by decide⟩ <;>
  norm_num [yGroup, vtolOf, calculate_text_heights, blockHeight, statistics_median, sortQ,
    List.insertionSort, List.orderedInsert, pyTrunc, List.cons_ne_nil]

/-- Claim C4 (amended): the vertical bucket is the Python int() conversion
of top over the vertical tolerance, which truncates toward zero: it equals
floor(top / verticalTolerance) for tokens with nonnegative top coordinate
(but not in general for negative tops, see the counterexample), and the
tokens are grouped into candidate lines as maximal runs of equal
(page, bucket) in the sorted order. -/
theorem C4_bucket_amended (ts : List Token) (t : Token) (h : 0 ≤ t.top) :
    yGroup (vtolOf ts) t = ⌊t.top / vtolOf ts⌋ ∧
    group_text_blocks ts =
      ((canonLines (vtolOf ts) ts).map
        (fun line => mergeLoop (htolOf ts) [] [] line)).flatten := by
  refine ⟨?_, group_text_blocks_eq ts⟩
  rw [yGroup]
  exact pyTrunc_eq_floor_of_nonneg _ (div_nonneg h (le_of_lt (vtolOf_pos ts)))

/-- Claim C4 witness: a token with nonnegative top. -/
theorem C4_bucket_witness :
    (0 : ℚ) ≤ (⟨"w", "W", 0, 1, 1, 3, 0⟩ : Token).top ∧
    yGroup (vtolOf [⟨"w", "W", 0, 1, 1, 3, 0⟩]) ⟨"w", "W", 0, 1, 1, 3, 0⟩ =
      ⌊(⟨"w", "W", 0, 1, 1, 3, 0⟩ : Token).top / vtolOf [⟨"w", "W", 0, 1, 1, 3, 0⟩]⌋ :=
  ⟨by norm_num, (C4_bucket_amended [⟨"w", "W", 0, 1, 1, 3, 0⟩] ⟨"w", "W", 0, 1, 1, 3, 0⟩
    (by norm_num)).1⟩

/-- Claim C5: group_paragraphs is exactly the partition of the
(page, top)-sorted Lines into maximal runs in which each consecutive pair
is on the same page with vertical gap nextLine.top - currentLast.bottom at
most 1.5 times the median Line height (recomputed from the Lines); a gap
equal to the threshold keeps the run going, a strictly greater gap or a
page change starts a new Paragraph. -/
theorem C5_paragraph_gap (ls : List Token) :
    group_paragraphs ls = chunkBy (paraRel (gapThresholdOf ls)) (sortByPageTop ls) ∧
    gapThresholdOf ls = statistics_median (ls.map blockHeight) * (3 / 2) ∧
    ∀ a b : Token, paraRel (gapThresholdOf ls) a b ↔
      (b.page = a.page ∧ b.top - a.bottom ≤ gapThresholdOf ls) :=
  ⟨group_paragraphs_eq_chunk ls, rfl, fun _ _ => Iff.rfl⟩

/-- Claim C6: the height estimator returns the median of the strictly
positive block heights - the middle element of a sorted permutation of
them for odd count, the average of the two middle elements for even
count - and the default 1.0 when no positive heights exist. -/
theorem C6_height_estimator (ts : List Token) :
    ∃ s : List ℚ,
      s.Perm ((ts.map blockHeight).filter (fun h => decide (0 < h))) ∧
      List.Sorted (fun a b => a ≤ b) s ∧
      calculate_text_heights ts =
        (if s = [] then 1
         else if s.length % 2 = 1 then s.getD (s.length / 2) 0
         else (s.getD (s.length / 2 - 1) 0 + s.getD (s.length / 2) 0) / 2) := by
  refine ⟨sortQ ((ts.map blockHeight).filter (fun h => decide (0 < h))),
    List.perm_insertionSort _ _, List.sorted_insertionSort _ _, ?_⟩
  rw [calculate_text_heights]
  by_cases h : (ts.map blockHeight).filter (fun h => decide (0 < h)) = []
  · rw [if_pos h, if_pos (by rw [h]; rfl)]
  · have hs : sortQ ((ts.map blockHeight).filter (fun h => decide (0 < h))) ≠ [] := by
      intro hnil
      refine h (List.eq_nil_of_length_eq_zero ?_)
      rw [← (List.perm_insertionSort (fun a b : ℚ => a ≤ b) _).length_eq, ← sortQ, hnil]
      rfl
    rw [if_neg h, if_neg hs, statistics_median]

/-- Claim C7: the pipeline only ever collapses records, so the number of
Paragraphs is at most the number of Lines, which is at most the number of
input Tokens. -/
theorem C7_counts_monotone (ts : List Token) :
    (group_paragraphs (group_text_blocks ts)).length ≤ (group_text_blocks ts).length ∧
    (group_text_blocks ts).length ≤ ts.length :=
  ⟨group_paragraphs_length_le _, group_text_blocks_length_le ts⟩

/-- Claim C8: the clustering pipeline is total.  The fallible embedding,
which returns none exactly where the Python code would raise (median of an
empty list, division by a zero tolerance, min or max of an empty
sequence), always returns the value of the total embedding, for every
well-typed token list including malformed, inverted or zero-extent
boxes. -/
theorem C8_totality (ts : List Token) :
    group_text_blocksE ts = some (group_text_blocks ts) ∧
    group_paragraphsE (group_text_blocks ts) =
      some (group_paragraphs (group_text_blocks ts)) ∧
    format_paragraphsE (group_paragraphs (group_text_blocks ts)) =
      some (format_paragraphs (group_paragraphs (group_text_blocks ts))) ∧
    pipelineE ts = some (pipeline ts) :=
  ⟨group_text_blocksE_eq ts, group_paragraphsE_eq _, format_paragraphsE_eq _,
    pipelineE_eq ts⟩

/-- Claim C9: the empty token sequence produces zero Lines, zero
Paragraphs and an empty pipeline output, with no failure. -/
theorem C9_empty_input :
    group_text_blocks [] = [] ∧ group_paragraphs [] = [] ∧ pipeline [] = [] ∧
    pipelineE [] = some [] :=
  ⟨rfl, rfl, rfl, pipelineE_eq []⟩

/-- Claim C10: group_text_blocks mutates its input: on two mergeable
tokens, the merge step rewrites the first token record in place (text
becomes the joined text, right and bottom take the max), so the caller
list differs from the original after the call. -/
theorem C10_merge_mutates_input :
    group_text_blocksMutStore
        [⟨"a", "alpha", 0, 0, 1, 1, 0⟩, ⟨"b", "beta", 6/5, 0, 2, 1, 0⟩] =
      [⟨"a", "alpha beta", 0, 0, 2, 1, 0⟩, ⟨"b", "beta", 6/5, 0, 2, 1, 0⟩] ∧
    group_text_blocksMutStore
        [⟨"a", "alpha", 0, 0, 1, 1, 0⟩, ⟨"b", "beta", 6/5, 0, 2, 1, 0⟩] ≠
      [⟨"a", "alpha", 0, 0, 1, 1, 0⟩, ⟨"b", "beta", 6/5, 0, 2, 1, 0⟩] := by
  constructor
  · norm_num [group_text_blocksMutStore, htolOf, vtolOf, calculate_text_heights, blockHeight,
      statistics_median, sortQ, sortByPageYgIdx, sortByLeftIdx, pageYgLe, yGroup, pyTrunc,
      lineLoopIdx, mergeLoopIdx, mergeAbsorb, List.insertionSort, List.orderedInsert,
      List.enum, List.enumFrom, List.cons_ne_nil]
    all_goals rfl
  · norm_num [group_text_blocksMutStore, htolOf, vtolOf, calculate_text_heights, blockHeight,
      statistics_median, sortQ, sortByPageYgIdx, sortByLeftIdx, pageYgLe, yGroup, pyTrunc,
      lineLoopIdx, mergeLoopIdx, mergeAbsorb, List.insertionSort, List.orderedInsert,
      List.enum, List.enumFrom, List.cons_ne_nil, Token.mk.injEq]

end PDFViewer
